import Mathlib

/-!
Verification of the carbon-credit ledger program (`src/carboncredits.py`).

The Python program keeps an in-session ledger of "green activity" entries
(a pandas DataFrame stored in Streamlit session state), converts each
activity into a CO₂-equivalent saving and an equal credit value, derives
aggregate views (leaderboard, cumulative timeline, totals) with pandas
groupby operations, and exports the ledger to CSV.

This file embeds that logic shallowly:
* machine floats become exact rationals (`ℚ`); the spec's "within
  floating-point epsilon" comparisons become exact equalities,
* the DataFrame becomes a `List Entry` in insertion order,
* Streamlit session state becomes an explicit `AppState` record,
* the random draws of the mock seeder and the effectful inputs
  (`uuid.uuid4()`, `datetime.now()`) become explicit parameters,
* pandas `groupby(k)[v].sum()` (whose default `sort=True` orders the
  groups by key) becomes an explicit group-and-sum over the sorted,
  deduplicated key list,
* `df.to_csv(index=False)` and its inverse become a character-level
  CSV writer/parser pair with minimal quoting, as pandas produces.
-/

namespace CarbonCredits

/-- Emission factors table from the source: activity → (factor, unit).
`EMISSION_FACTORS = {"Electricity saved": {"factor": 0.82, "unit": "kWh"}, ...}`. -/
def EMISSION_FACTORS : List (String × ℚ × String) :=
  [ ("Electricity saved", (82/100, "kWh")),
    ("Walk/Bike Commute", (15/100, "km")),
    ("Waste recycled",    (90/100, "kg")),
    ("Trees planted",     (2177/100, "count")),
    ("Solar power used",  (80/100, "kWh")),
    ("Paper Saved",       (5/1000, "sheets")),
    ("Water Saved",       (3/10000, "liters")) ]

/-- `EMISSION_FACTORS.get(activity, {"factor": 0})["factor"]` — dictionary
lookup with a silent default factor of `0` for unrecognized activities. -/
def factorOf (activity : String) : ℚ :=
  ((EMISSION_FACTORS.lookup activity).map Prod.fst).getD 0

/-- `calculate_credits(activity, quantity)`: `co2_saved = quantity * factor`;
returns `(co2_saved, co2_saved)` — 1 credit = 1 kg CO₂e. -/
def calculate_credits (activity : String) (quantity : ℚ) : ℚ × ℚ :=
  let factor := factorOf activity
  let co2_saved := quantity * factor
  (co2_saved, co2_saved)

/-- Lexicographic order on character lists, comparing code points — the
order Python and pandas use on strings. (Defined from scratch so that it
evaluates by kernel reduction.) -/
def listCharLe : List Char → List Char → Bool
  | [], _ => true
  | _ :: _, [] => false
  | a :: as, b :: bs => if a = b then listCharLe as bs else decide (a.toNat < b.toNat)

/-- Lexicographic string order (code points), as pandas sorts group keys. -/
def strLe (s t : String) : Bool := listCharLe s.data t.data

/-- `strLe` as a relation, for use with `List.insertionSort`. -/
def strLeProp (s t : String) : Prop := strLe s t = true

instance : DecidableRel strLeProp :=
  fun s t => inferInstanceAs (Decidable (strLe s t = true))

/-- Strict lexicographic string order. -/
def strLt (s t : String) : Prop := strLe s t = true ∧ s ≠ t

/-- One ledger row, following `DATA_COLUMNS`:
`["Entry ID", "Timestamp", "Name", "Role", "Activity", "Quantity",
  "CO₂ Saved (kg)", "Credits Generated"]`.
Timestamps are kept as their `"%Y-%m-%d %H:%M:%S"` strings; with that
zero-padded format, string order coincides with chronological order. -/
structure Entry where
  entryId : String
  timestamp : String
  name : String
  role : String
  activity : String
  quantity : ℚ
  co2Saved : ℚ
  credits : ℚ
deriving DecidableEq, Repr

/-- Streamlit session state: `st.session_state.data` (the ledger DataFrame),
whether the `"data"` key is present at all, and the `data_reset` flag. -/
structure AppState where
  data : List Entry
  hasData : Bool
  dataReset : Bool
deriving DecidableEq, Repr

/-- Session state before the first run: no `"data"` key, no reset flag. -/
def initialState : AppState := ⟨[], false, false⟩

/-- Outcome reported by the submission form: `st.error(msg)` or
`st.success(...)` carrying the generated credits. -/
inductive SubmitResult where
  | error (msg : String)
  | success (credits : ℚ)
deriving DecidableEq, Repr

/-- The submission branch of `render_sidebar_form` (lines 258-281):
`if not name: error` / `elif quantity <= 0: error` / else compute
`calculate_credits`, build the row and concat it onto the ledger.
`newId` and `now` stand for `uuid.uuid4()` and the formatted
`datetime.now()`. -/
def submitForm (name role activity : String) (quantity : ℚ)
    (newId now : String) (s : AppState) : AppState × SubmitResult :=
  if name = "" then
    (s, .error "Please enter your name.")
  else if quantity ≤ 0 then
    (s, .error "Quantity must be greater than zero.")
  else
    let p := calculate_credits activity quantity
    let e : Entry := ⟨newId, now, name, role, activity, quantity, p.1, p.2⟩
    ({ s with data := s.data ++ [e], hasData := true }, .success p.2)

/-- One iteration of the mock-data loop with its random draws made
explicit: the chosen `(name, role)` pair, activity, quantity, plus the
generated uuid and timestamp string. -/
structure MockSample where
  name : String
  role : String
  activity : String
  quantity : ℚ
  entryId : String
  timestamp : String
deriving DecidableEq, Repr

/-- Body of the `populate_mock_data` loop: the row is built from
`calculate_credits(activity, quantity)`. -/
def mkMockEntry (m : MockSample) : Entry :=
  let p := calculate_credits m.activity m.quantity
  ⟨m.entryId, m.timestamp, m.name, m.role, m.activity, m.quantity, p.1, p.2⟩

/-- The mock DataFrame: generated rows sorted ascending by timestamp
(`df.sort_values(by='Timestamp')`). -/
def tsLeProp (a b : Entry) : Prop := strLeProp a.timestamp b.timestamp

instance : DecidableRel tsLeProp :=
  fun a b => inferInstanceAs (Decidable (strLe a.timestamp b.timestamp = true))

def mockDataFrame (samples : List MockSample) : List Entry :=
  List.insertionSort tsLeProp (samples.map mkMockEntry)

/-- `populate_mock_data`: concatenates the timestamp-sorted mock rows onto
`st.session_state.data`. -/
def populate_mock_data (samples : List MockSample) (s : AppState) : AppState :=
  { s with data := s.data ++ mockDataFrame samples }

/-- `initialize_data`: on a fresh session (`"data" not in st.session_state`)
or after a reset (`data_reset` truthy), install an empty DataFrame, seed
mock data when `GENERATE_MOCK_DATA` is set, and clear the flag. The
trailing column/dtype fix-ups of the source are identities in this typed
model. -/
def initialize_data (generateMockData : Bool) (samples : List MockSample)
    (s : AppState) : AppState :=
  if ¬s.hasData ∨ s.dataReset then
    let s1 : AppState := { s with data := [], hasData := true }
    let s2 := if generateMockData then populate_mock_data samples s1 else s1
    { s2 with dataReset := false }
  else s

/-- `reset_data_callback`: sets `st.session_state.data_reset = True`; the
triggered rerun then executes `initialize_data` (modeled by composing the
two functions). -/
def reset_data_callback (s : AppState) : AppState :=
  { s with dataReset := true }

/-- Pandas `df.groupby(key)[val].sum()` with the default `sort=True`: the
distinct keys in ascending order, each paired with the sum of `val` over
the rows having that key. -/
def groupbySum (key : Entry → String) (val : Entry → ℚ) (l : List Entry) :
    List (String × ℚ) :=
  (List.insertionSort strLeProp (l.map key).dedup).map
    (fun k => (k, ((l.filter (fun e => key e = k)).map val).sum))

/-- Insert a pair into a descending-by-value list, after all entries whose
value is greater than or equal to its own (a stable descending insert). -/
def insertDesc (x : String × ℚ) : List (String × ℚ) → List (String × ℚ)
  | [] => [x]
  | y :: ys => if y.2 < x.2 then x :: y :: ys else y :: insertDesc x ys

/-- Pandas `Series.sort_values(ascending=False)` as a stable descending
sort by value (equal values keep the input's — i.e. the groupby key — order;
observed pandas behavior on the small ledgers this program handles). -/
def sortValuesDesc (l : List (String × ℚ)) : List (String × ℚ) :=
  l.foldl (fun acc x => insertDesc x acc) []

/-- `df.groupby('Name')['Credits Generated'].sum().sort_values(ascending=False)`
(line 298): per-actor credit sums, descending. -/
def leaderboard (l : List Entry) : List (String × ℚ) :=
  sortValuesDesc (groupbySum (fun e => e.name) (fun e => e.credits) l)

/-- `df["Credits Generated"].sum()` (line 293). -/
def totalCredits (l : List Entry) : ℚ :=
  (l.map (fun e => e.credits)).sum

/-- `.dt.date` on a `"%Y-%m-%d %H:%M:%S"` timestamp: the first ten
characters, `"%Y-%m-%d"`. -/
def dateOf (ts : String) : String := ts.take 10

/-- Running prefix sums over the values of (key, value) pairs,
threading the accumulator (`Series.cumsum()`). -/
def cumPairs (acc : ℚ) : List (String × ℚ) → List (String × ℚ)
  | [] => []
  | (k, v) :: t => (k, acc + v) :: cumPairs (acc + v) t

/-- Lines 383-385: truncate timestamps to dates, group by date and sum
credits (dates ascending, pandas groupby), then take the running
cumulative sum. -/
def cumulativeTimeline (l : List Entry) : List (String × ℚ) :=
  cumPairs 0 (groupbySum (fun e => dateOf e.timestamp) (fun e => e.credits) l)

/-- The header row of the exported DataFrame (`DATA_COLUMNS`). -/
def DATA_COLUMNS : List String :=
  [ "Entry ID", "Timestamp", "Name", "Role", "Activity", "Quantity",
    "CO₂ Saved (kg)", "Credits Generated" ]

/-- An entry derives its `co2Saved`/`credits` pair from `(activity,
quantity)` through `calculate_credits` — true of every row the program
builds. -/
def EntryDerived (e : Entry) : Prop :=
  e.co2Saved = e.quantity * factorOf e.activity ∧ e.credits = e.co2Saved

/-- A persisted entry as the data model describes it: positive quantity
and calculator-derived `co2Saved`/`credits`. -/
def ValidEntry (e : Entry) : Prop :=
  0 < e.quantity ∧ EntryDerived e

/-- CSV minimal quoting (pandas `to_csv` default): a field is quoted iff
it contains the delimiter, the quote character, or a line break. -/
def needsQuote (f : List Char) : Bool :=
  f.any (fun c => c = ',' || c = '"' || c = '\n' || c = '\r')

/-- Double every quote character (CSV escaping inside quoted fields). -/
def escapeQuotes : List Char → List Char
  | [] => []
  | c :: cs =>
    if c = '"' then '"' :: '"' :: escapeQuotes cs else c :: escapeQuotes cs

/-- Serialize one CSV field with minimal quoting. -/
def writeField (f : List Char) : List Char :=
  if needsQuote f then '"' :: (escapeQuotes f ++ ['"']) else f

/-- Serialize one CSV record: fields joined by commas. -/
def writeRecord : List (List Char) → List Char
  | [] => []
  | [f] => writeField f
  | f :: fs => writeField f ++ ',' :: writeRecord fs

/-- Serialize CSV records, each terminated by a newline, as
`DataFrame.to_csv` emits them. -/
def writeCsvRecords (rs : List (List (List Char))) : List Char :=
  (rs.map (fun r => writeRecord r ++ ['\n'])).flatten

/-- Parse the rest of a quoted CSV field (opening quote already consumed):
a doubled quote is a literal quote, a single quote closes the field.
Returns the field's content and the unconsumed rest. -/
def parseQuoted : List Char → List Char × List Char
  | [] => ([], [])
  | '"' :: '"' :: rest =>
    let p := parseQuoted rest
    ('"' :: p.1, p.2)
  | '"' :: rest => ([], rest)
  | c :: rest =>
    let p := parseQuoted rest
    (c :: p.1, p.2)

/-- Parse an unquoted CSV field: read up to the next comma or newline. -/
def parseUnquoted : List Char → List Char × List Char
  | [] => ([], [])
  | c :: rest =>
    if c = ',' ∨ c = '\n' then ([], c :: rest)
    else
      let p := parseUnquoted rest
      (c :: p.1, p.2)

/-- Parse one CSV field, quoted or not. -/
def parseField (cs : List Char) : List Char × List Char :=
  if cs.head? = some '"' then parseQuoted cs.tail else parseUnquoted cs

/-- Parse the comma-separated fields of one CSV record; `fuel` bounds the
number of fields (the parser is given more fuel than it can consume). -/
def parseRecordAux : ℕ → List Char → List (List Char) × List Char
  | 0, cs => ([], cs)
  | fuel + 1, cs =>
    let p := parseField cs
    if p.2.head? = some ',' then
      let q := parseRecordAux fuel p.2.tail
      (p.1 :: q.1, q.2)
    else ([p.1], p.2)

/-- Parse one CSV record (up to a newline or the end of input). -/
def parseRecord (cs : List Char) : List (List Char) × List Char :=
  parseRecordAux (cs.length + 1) cs

/-- Parse a sequence of newline-terminated CSV records; `fuel` bounds the
number of records. -/
def parseCsvAux : ℕ → List Char → List (List (List Char))
  | 0, _ => []
  | fuel + 1, cs =>
    if cs = [] then []
    else
      let p := parseRecord cs
      if p.2.head? = some '\n' then p.1 :: parseCsvAux fuel p.2.tail
      else [p.1]

/-- Parse a CSV text into its records. -/
def parseCsvRecords (cs : List Char) : List (List (List Char)) :=
  parseCsvAux (cs.length + 1) cs

/-- Numeric value of a decimal digit character. -/
def digitVal (c : Char) : ℕ := c.toNat - 48

/-- Decimal digit string of a natural number. -/
def natStrChars (n : ℕ) : List Char :=
  if n = 0 then ['0'] else ((Nat.digits 10 n).map Nat.digitChar).reverse

/-- Decimal digit string of `n`, left-padded with zeros to `k` digits
(the fractional part of a decimal, which keeps leading zeros). -/
def natStrPadChars (k n : ℕ) : List Char :=
  ((Nat.digits 10 n ++
    List.replicate (k - (Nat.digits 10 n).length) 0).map Nat.digitChar).reverse

/-- Value of a decimal digit string. -/
def natValChars (cs : List Char) : ℕ :=
  cs.foldl (fun a c => 10 * a + digitVal c) 0

/-- The least exponent `k ≤ d` with `d ∣ 10 ^ k`, when one exists — the
number of decimal digits needed after the point. A denominator with a
prime factor other than 2 and 5 has none; quantities occurring in the
program are binary floating-point values, whose denominators are powers
of two, so for them the search always succeeds. -/
def findPow10 (d : ℕ) : Option ℕ :=
  (List.range (d + 1)).find? (fun k => decide (d ∣ 10 ^ k))

/-- The unsigned decimal rendering of `n / d`: integer digits and — when
the denominator is not 1 — a point followed by exactly `k` fractional
digits. (Denominators with no finite decimal expansion, which cannot
arise from float data, fall back to a fraction rendering to keep the
function total.) -/
def ratBodyChars (n d : ℕ) : List Char :=
  match findPow10 d with
  | some k =>
    if k = 0 then natStrChars n
    else
      natStrChars (n * 10 ^ k / d / 10 ^ k) ++
        '.' :: natStrPadChars k (n * 10 ^ k / d % 10 ^ k)
  | none => natStrChars n ++ '/' :: natStrChars d

/-- Locale-independent decimal rendering of a rational, as the CSV export
writes numbers: optional sign, then the unsigned decimal body. -/
def ratToCsvChars (q : ℚ) : List Char :=
  (if q < 0 then ['-'] else []) ++ ratBodyChars q.num.natAbs q.den

/-- Parse an unsigned decimal (or fraction) rendering of a rational. -/
def parseRatNonneg (cs : List Char) : ℚ :=
  let ip := cs.takeWhile Char.isDigit
  let rest := cs.dropWhile Char.isDigit
  if rest.head? = some '.' then
    (natValChars ip : ℚ) + (natValChars rest.tail : ℚ) / 10 ^ rest.tail.length
  else if rest.head? = some '/' then
    (natValChars ip : ℚ) / (natValChars rest.tail : ℚ)
  else (natValChars ip : ℚ)

/-- Parse a decimal rendering of a rational, sign included. -/
def parseRatChars (cs : List Char) : ℚ :=
  if cs.head? = some '-' then -parseRatNonneg cs.tail else parseRatNonneg cs

/-- One exported CSV row of an entry, in `DATA_COLUMNS` order. -/
def entryRecord (e : Entry) : List (List Char) :=
  [ e.entryId.data, e.timestamp.data, e.name.data, e.role.data,
    e.activity.data, ratToCsvChars e.quantity, ratToCsvChars e.co2Saved,
    ratToCsvChars e.credits ]

/-- `df.to_csv(index=False)` (line 437): the header row followed by one
row per entry in snapshot order. -/
def to_csv (l : List Entry) : List Char :=
  writeCsvRecords ((DATA_COLUMNS.map String.data) :: l.map entryRecord)

/-- Rebuild an entry from a parsed CSV row, re-deriving `co2Saved` and
`credits` from the row's `(activity, quantity)` through
`calculate_credits`, as the round-trip property prescribes. -/
def parseEntryRecord (r : List (List Char)) : Option Entry :=
  match r with
  | [i, ts, nm, rl, act, qs, _, _] =>
    let q := parseRatChars qs
    let p := calculate_credits (String.mk act) q
    some ⟨String.mk i, String.mk ts, String.mk nm, String.mk rl,
          String.mk act, q, p.1, p.2⟩
  | _ => none

/-- Re-parse an exported CSV: split into records, drop the header row,
rebuild the entries. -/
def parseLedgerCsv (cs : List Char) : Option (List Entry) :=
  match parseCsvRecords cs with
  | [] => none
  | _ :: rows => rows.mapM parseEntryRecord

/-- Demo entry: actor "Y", 10 kg waste recycled (credits `10 * 0.90 = 9`),
submitted first. -/
def entryY : Entry :=
  ⟨"e1", "2025-01-01 10:00:00", "Y", "Student", "Waste recycled", 10, 9, 9⟩

/-- Demo entry: actor "X", 10 kg waste recycled (credits 9), submitted
second — tied with "Y". -/
def entryX : Entry :=
  ⟨"e2", "2025-01-02 11:00:00", "X", "Student", "Waste recycled", 10, 9, 9⟩

/-- Demo entry from the spec's concrete scenario: Alice plants 2 trees
(credits `2 * 21.77 = 43.54`). -/
def entryAlice : Entry :=
  ⟨"a1", "2025-01-01 09:00:00", "Alice", "Student", "Trees planted", 2,
    2177/50, 2177/50⟩

/-- Demo entry from the spec's concrete scenario: Bob walks 10 km
(credits `10 * 0.15 = 1.5`). -/
def entryBob : Entry :=
  ⟨"b1", "2025-01-02 09:30:00", "Bob", "Student", "Walk/Bike Commute", 10,
    3/2, 3/2⟩

/-- States reachable through the program's ledger operations: session
initialization / rerun, form submission, and reset followed by the rerun's
`initialize_data`. -/
inductive Reachable : AppState → Prop where
  | init (generateMockData : Bool) (samples : List MockSample) :
      Reachable (initialize_data generateMockData samples initialState)
  | rerun (generateMockData : Bool) (samples : List MockSample) {s : AppState} :
      Reachable s → Reachable (initialize_data generateMockData samples s)
  | submit (name role activity : String) (quantity : ℚ) (newId now : String)
      {s : AppState} : Reachable s →
      Reachable (submitForm name role activity quantity newId now s).1
  | reset (generateMockData : Bool) (samples : List MockSample) {s : AppState} :
      Reachable s →
      Reachable (initialize_data generateMockData samples (reset_data_callback s))

/-! ### Lemmas about the lexicographic string order -/

theorem char_eq_of_toNat_eq {a b : Char} (h : a.toNat = b.toNat) : a = b := by
  have h2 : a.val = b.val := UInt32.toNat.inj h
  cases a
  cases b
  simp_all

theorem listCharLe_total (as bs : List Char) :
    listCharLe as bs = true ∨ listCharLe bs as = true := by
  induction as generalizing bs with
  | nil => left; simp [listCharLe]
  | cons a as ih =>
    cases bs with
    | nil => right; simp [listCharLe]
    | cons b bs =>
      by_cases hab : a = b
      · subst hab
        simpa [listCharLe] using ih bs
      · have hne : a.toNat ≠ b.toNat := fun h => hab (char_eq_of_toNat_eq h)
        have hba : b ≠ a := fun h => hab h.symm
        rcases Nat.lt_or_gt_of_ne hne with h | h
        · left; simp [listCharLe, hab, h]
        · right; simp [listCharLe, hba, h]

theorem listCharLe_trans {as bs cs : List Char}
    (h1 : listCharLe as bs = true) (h2 : listCharLe bs cs = true) :
    listCharLe as cs = true := by
  induction as generalizing bs cs with
  | nil => simp [listCharLe]
  | cons a as ih =>
    cases bs with
    | nil => simp [listCharLe] at h1
    | cons b bs =>
      cases cs with
      | nil => simp [listCharLe] at h2
      | cons c cs =>
        by_cases hab : a = b
        · subst hab
          by_cases hbc : a = c
          · subst hbc
            simp only [listCharLe, if_pos rfl] at h1 h2 ⊢
            exact ih h1 h2
          · simp only [listCharLe, if_pos rfl] at h1
            simpa [listCharLe, hbc] using h2
        · by_cases hbc : b = c
          · subst hbc
            simpa [listCharLe, hab] using h1
          · simp only [listCharLe, if_neg hab] at h1
            simp only [listCharLe, if_neg hbc] at h2
            have hlt : a.toNat < c.toNat :=
              Nat.lt_trans (of_decide_eq_true h1) (of_decide_eq_true h2)
            have hac : a ≠ c := fun h => Nat.lt_irrefl _ (h ▸ hlt)
            simp [listCharLe, hac, hlt]

theorem listCharLe_antisymm {as bs : List Char}
    (h1 : listCharLe as bs = true) (h2 : listCharLe bs as = true) : as = bs := by
  induction as generalizing bs with
  | nil =>
    cases bs with
    | nil => rfl
    | cons b bs => simp [listCharLe] at h2
  | cons a as ih =>
    cases bs with
    | nil => simp [listCharLe] at h1
    | cons b bs =>
      by_cases hab : a = b
      · subst hab
        simp only [listCharLe, if_pos rfl] at h1 h2
        exact congrArg _ (ih h1 h2)
      · have hba : b ≠ a := fun h => hab h.symm
        simp only [listCharLe, if_neg hab] at h1
        simp only [listCharLe, if_neg hba] at h2
        exact absurd (of_decide_eq_true h2)
          (Nat.lt_asymm (of_decide_eq_true h1))

theorem strLe_total : ∀ s t : String, strLeProp s t ∨ strLeProp t s :=
  fun s t => listCharLe_total s.data t.data

theorem strLe_trans : ∀ s t u : String, strLeProp s t → strLeProp t u → strLeProp s u :=
  fun _ _ _ h1 h2 => listCharLe_trans h1 h2

theorem strLe_antisymm : ∀ s t : String, strLeProp s t → strLeProp t s → s = t := by
  intro s t h1 h2
  have : s.data = t.data := listCharLe_antisymm h1 h2
  cases s
  cases t
  simp_all

theorem tsLe_total : ∀ a b : Entry, tsLeProp a b ∨ tsLeProp b a :=
  fun a b => strLe_total a.timestamp b.timestamp

theorem tsLe_trans : ∀ a b c : Entry, tsLeProp a b → tsLeProp b c → tsLeProp a c :=
  fun a b c => strLe_trans a.timestamp b.timestamp c.timestamp

/-! ### Lemmas about `groupbySum` -/

theorem sum_map_ite_eq_of_mem {ks : List String} {a : String} (v : ℚ)
    (hnd : ks.Nodup) (ha : a ∈ ks) :
    (ks.map (fun k => if a = k then v else 0)).sum = v := by
  induction ks with
  | nil => cases ha
  | cons k ks ih =>
    rcases List.mem_cons.mp ha with h | h
    · subst h
      have hout : ∀ x ∈ ks, (if a = x then v else (0 : ℚ)) = 0 := by
        intro x hx
        have : a ≠ x := fun he => (List.nodup_cons.mp hnd).1 (he ▸ hx)
        simp [this]
      simp [List.sum_eq_zero fun y hy => by
        rcases List.mem_map.mp hy with ⟨x, hx, rfl⟩
        exact hout x hx]
    · have hak : a ≠ k := by
        intro he
        exact (List.nodup_cons.mp hnd).1 (he ▸ h)
      simp [hak, ih (List.nodup_cons.mp hnd).2 h]

theorem bucket_sum (key : Entry → String) (val : Entry → ℚ)
    (l : List Entry) (ks : List String) (hnd : ks.Nodup)
    (hmem : ∀ e ∈ l, key e ∈ ks) :
    (ks.map (fun k => ((l.filter (fun e => key e = k)).map val).sum)).sum
      = (l.map val).sum := by
  induction l with
  | nil => simp
  | cons e l ih =>
    have hm : key e ∈ ks := hmem e (List.mem_cons_self e l)
    have hmem' : ∀ x ∈ l, key x ∈ ks := fun x hx => hmem x (List.mem_cons_of_mem e hx)
    have step : ∀ k, ((List.filter (fun x => key x = k) (e :: l)).map val).sum
        = (if key e = k then val e else 0)
          + ((l.filter (fun x => key x = k)).map val).sum := by
      intro k
      by_cases h : key e = k <;> simp [List.filter_cons, h]
    calc (ks.map (fun k => ((List.filter (fun x => key x = k) (e :: l)).map val).sum)).sum
        = (ks.map (fun k => (if key e = k then val e else 0)
            + ((l.filter (fun x => key x = k)).map val).sum)).sum := by
          simp only [step]
      _ = (ks.map (fun k => if key e = k then val e else 0)).sum
            + (ks.map (fun k => ((l.filter (fun x => key x = k)).map val).sum)).sum := by
          rw [← List.sum_map_add]
      _ = val e + (l.map val).sum := by
          rw [ih hmem', sum_map_ite_eq_of_mem (val e) hnd hm]
      _ = ((e :: l).map val).sum := by simp

theorem groupbySum_keys_nodup (key : Entry → String) (l : List Entry) :
    (List.insertionSort strLeProp (l.map key).dedup).Nodup :=
  (List.perm_insertionSort strLeProp (l.map key).dedup).symm.nodup
    (List.nodup_dedup (l.map key))

theorem groupbySum_keys_mem (key : Entry → String) (l : List Entry) :
    ∀ e ∈ l, key e ∈ List.insertionSort strLeProp (l.map key).dedup := by
  intro e he
  rw [(List.perm_insertionSort strLeProp (l.map key).dedup).mem_iff,
    List.mem_dedup]
  exact List.mem_map_of_mem key he

theorem groupbySum_snd_sum (key : Entry → String) (val : Entry → ℚ)
    (l : List Entry) :
    ((groupbySum key val l).map Prod.snd).sum = (l.map val).sum := by
  unfold groupbySum
  rw [List.map_map]
  have : (Prod.snd ∘ fun k => (k, ((l.filter (fun e => key e = k)).map val).sum))
      = fun k => ((l.filter (fun e => key e = k)).map val).sum := rfl
  rw [this]
  exact bucket_sum key val l _ (groupbySum_keys_nodup key l)
    (groupbySum_keys_mem key l)

theorem groupbySum_keys_pairwise (key : Entry → String) (val : Entry → ℚ)
    (l : List Entry) :
    (groupbySum key val l).Pairwise (fun a b => strLt a.1 b.1) := by
  unfold groupbySum
  rw [List.pairwise_map]
  have hsorted : List.Sorted strLeProp
      (List.insertionSort strLeProp (l.map key).dedup) :=
    @List.sorted_insertionSort _ _ _ ⟨strLe_total⟩ ⟨strLe_trans⟩ _
  exact (hsorted.and (groupbySum_keys_nodup key l)).imp
    (fun h => ⟨h.1, h.2⟩)

/-! ### Lemmas about the stable descending value sort -/

theorem insertDesc_perm (x : String × ℚ) (l : List (String × ℚ)) :
    List.Perm (insertDesc x l) (x :: l) := by
  induction l with
  | nil => exact List.Perm.refl _
  | cons y ys ih =>
    by_cases h : y.2 < x.2
    · simp [insertDesc, h]
    · simp only [insertDesc, if_neg h]
      exact (ih.cons y).trans (List.Perm.swap x y ys)

theorem mem_insertDesc {x z : String × ℚ} {l : List (String × ℚ)} :
    z ∈ insertDesc x l ↔ z = x ∨ z ∈ l := by
  rw [(insertDesc_perm x l).mem_iff, List.mem_cons]

theorem sortValuesDesc_perm_aux (l acc : List (String × ℚ)) :
    List.Perm (l.foldl (fun acc x => insertDesc x acc) acc) (l ++ acc) := by
  induction l generalizing acc with
  | nil => simp
  | cons x l ih =>
    have h1 : (x :: l).foldl (fun acc x => insertDesc x acc) acc
        = l.foldl (fun acc x => insertDesc x acc) (insertDesc x acc) := rfl
    rw [h1]
    exact ((ih _).trans
      (List.Perm.append_left l (insertDesc_perm x acc))).trans
      List.perm_middle

theorem sortValuesDesc_perm (l : List (String × ℚ)) :
    List.Perm (sortValuesDesc l) l := by
  simpa using sortValuesDesc_perm_aux l []

theorem insertDesc_pairwise {x : String × ℚ} {acc : List (String × ℚ)}
    (hdesc : acc.Pairwise (fun a b => b.2 ≤ a.2))
    (htie : acc.Pairwise (fun a b => a.2 = b.2 → strLt a.1 b.1))
    (hname : ∀ a ∈ acc, strLt a.1 x.1) :
    (insertDesc x acc).Pairwise (fun a b => b.2 ≤ a.2)
      ∧ (insertDesc x acc).Pairwise (fun a b => a.2 = b.2 → strLt a.1 b.1) := by
  induction acc with
  | nil => simp [insertDesc]
  | cons y ys ih =>
    rcases List.pairwise_cons.mp hdesc with ⟨hdy, hdys⟩
    rcases List.pairwise_cons.mp htie with ⟨hty, htys⟩
    by_cases h : y.2 < x.2
    · simp only [insertDesc, if_pos h]
      constructor
      · refine List.pairwise_cons.mpr ⟨?_, hdesc⟩
        intro z hz
        rcases List.mem_cons.mp hz with rfl | hz
        · exact le_of_lt h
        · exact le_trans (hdy z hz) (le_of_lt h)
      · refine List.pairwise_cons.mpr ⟨?_, htie⟩
        intro z hz he
        rcases List.mem_cons.mp hz with rfl | hz
        · exact absurd he.symm (ne_of_lt h)
        · exact absurd he.symm (ne_of_lt (lt_of_le_of_lt (hdy z hz) h))
    · simp only [insertDesc, if_neg h]
      have hrec := ih hdys htys (fun a ha => hname a (List.mem_cons_of_mem y ha))
      constructor
      · refine List.pairwise_cons.mpr ⟨?_, hrec.1⟩
        intro z hz
        rcases mem_insertDesc.mp hz with rfl | hz
        · exact le_of_not_lt h
        · exact hdy z hz
      · refine List.pairwise_cons.mpr ⟨?_, hrec.2⟩
        intro z hz he
        rcases mem_insertDesc.mp hz with rfl | hz
        · exact hname y (List.mem_cons_self y ys)
        · exact hty z hz he

theorem sortValuesDesc_pairwise_aux :
    ∀ (l acc : List (String × ℚ)),
      l.Pairwise (fun a b => strLt a.1 b.1) →
      acc.Pairwise (fun a b => b.2 ≤ a.2) →
      acc.Pairwise (fun a b => a.2 = b.2 → strLt a.1 b.1) →
      (∀ a ∈ acc, ∀ b ∈ l, strLt a.1 b.1) →
      (l.foldl (fun acc x => insertDesc x acc) acc).Pairwise
          (fun a b => b.2 ≤ a.2)
        ∧ (l.foldl (fun acc x => insertDesc x acc) acc).Pairwise
          (fun a b => a.2 = b.2 → strLt a.1 b.1) := by
  intro l
  induction l with
  | nil => intro acc _ hdesc htie _; exact ⟨hdesc, htie⟩
  | cons x l ih =>
    intro acc hl hdesc htie hcross
    rcases List.pairwise_cons.mp hl with ⟨hxl, hl'⟩
    have hstep := insertDesc_pairwise hdesc htie
      (fun a ha => hcross a ha x (List.mem_cons_self x l))
    refine ih (insertDesc x acc) hl' hstep.1 hstep.2 ?_
    intro a ha b hb
    rcases mem_insertDesc.mp ha with rfl | ha
    · exact hxl b hb
    · exact hcross a ha b (List.mem_cons_of_mem x hb)

theorem sortValuesDesc_pairwise (l : List (String × ℚ))
    (hl : l.Pairwise (fun a b => strLt a.1 b.1)) :
    (sortValuesDesc l).Pairwise (fun a b => b.2 ≤ a.2)
      ∧ (sortValuesDesc l).Pairwise (fun a b => a.2 = b.2 → strLt a.1 b.1) :=
  sortValuesDesc_pairwise_aux l [] hl (List.Pairwise.nil) (List.Pairwise.nil)
    (fun a ha => absurd ha (List.not_mem_nil a))

/-! ### Lemmas about the cumulative prefix sum -/

theorem cumPairs_chain (acc : ℚ) (g : List (String × ℚ))
    (h : ∀ p ∈ g, 0 ≤ p.2) :
    (cumPairs acc g).Chain' (fun a b => a.2 ≤ b.2) := by
  induction g generalizing acc with
  | nil => simp [cumPairs]
  | cons p t ih =>
    obtain ⟨k, v⟩ := p
    cases t with
    | nil => simp [cumPairs]
    | cons p2 t2 =>
      obtain ⟨k2, v2⟩ := p2
      have h2 : (0 : ℚ) ≤ v2 := h (k2, v2) (List.mem_cons_of_mem _ (List.mem_cons_self _ _))
      refine List.Chain'.cons ?_ ?_
      · simpa using by linarith
      · exact ih (acc + v) (fun q hq => h q (List.mem_cons_of_mem _ hq))

theorem cumPairs_getLast (acc : ℚ) (g : List (String × ℚ)) (h : g ≠ []) :
    ((cumPairs acc g).map Prod.snd).getLast? = some (acc + (g.map Prod.snd).sum) := by
  induction g generalizing acc with
  | nil => exact absurd rfl h
  | cons p t ih =>
    obtain ⟨k, v⟩ := p
    cases t with
    | nil => simp [cumPairs]
    | cons p2 t2 =>
      obtain ⟨k2, v2⟩ := p2
      calc ((cumPairs acc ((k, v) :: (k2, v2) :: t2)).map Prod.snd).getLast?
          = ((cumPairs (acc + v) ((k2, v2) :: t2)).map Prod.snd).getLast? := by
            simp only [cumPairs, List.map_cons]
            rw [List.getLast?_cons_cons]
        _ = some (acc + v + (((k2, v2) :: t2).map Prod.snd).sum) :=
            ih (acc + v) (by simp)
        _ = some (acc + (((k, v) :: (k2, v2) :: t2).map Prod.snd).sum) := by
            simp only [List.map_cons, List.sum_cons]
            rw [Option.some_inj]
            ring

/-! ### CSV writer/parser inversion -/

theorem parseQuoted_escape (f : List Char) :
    ∀ rest : List Char, rest.head? ≠ some '"' →
      parseQuoted (escapeQuotes f ++ '"' :: rest) = (f, rest) := by
  induction f with
  | nil =>
    intro rest hrest
    cases rest with
    | nil => simp [escapeQuotes, parseQuoted]
    | cons c rest' =>
      have hc : c ≠ '"' := by
        intro h
        exact hrest (by simp [h])
      simp [escapeQuotes, parseQuoted, hc]
  | cons c f ih =>
    intro rest hrest
    by_cases hc : c = '"'
    · subst hc
      simp [escapeQuotes, parseQuoted, ih rest hrest]
    · simp [escapeQuotes, parseQuoted, hc, ih rest hrest]

theorem parseUnquoted_spec (f : List Char)
    (hf : ∀ c ∈ f, ¬(c = ',' ∨ c = '\n')) :
    ∀ rest : List Char,
      (rest = [] ∨ rest.head? = some ',' ∨ rest.head? = some '\n') →
      parseUnquoted (f ++ rest) = (f, rest) := by
  induction f with
  | nil =>
    intro rest hrest
    rcases hrest with rfl | h | h
    · simp [parseUnquoted]
    · cases rest with
      | nil => simp at h
      | cons c t =>
        simp only [List.head?_cons, Option.some_inj] at h
        simp [parseUnquoted, h]
    · cases rest with
      | nil => simp at h
      | cons c t =>
        simp only [List.head?_cons, Option.some_inj] at h
        simp [parseUnquoted, h]
  | cons c f ih =>
    intro rest hrest
    have hc := hf c (List.mem_cons_self c f)
    have hf' : ∀ x ∈ f, ¬(x = ',' ∨ x = '\n') :=
      fun x hx => hf x (List.mem_cons_of_mem c hx)
    simp [parseUnquoted, hc, ih hf' rest hrest]

theorem not_needsQuote_spec {f : List Char} (h : needsQuote f = false) :
    ∀ c ∈ f, c ≠ ',' ∧ c ≠ '"' ∧ c ≠ '\n' := by
  intro c hc
  have h2 := List.any_eq_false.mp h c hc
  simp only [Bool.or_eq_true, decide_eq_true_eq, not_or] at h2
  exact ⟨h2.1.1.1, h2.1.1.2, h2.1.2⟩

theorem parseField_writeField (f rest : List Char)
    (hrest : rest = [] ∨ rest.head? = some ',' ∨ rest.head? = some '\n') :
    parseField (writeField f ++ rest) = (f, rest) := by
  by_cases hq : needsQuote f
  · have hrest' : rest.head? ≠ some '"' := by
      rcases hrest with rfl | h | h <;> simp_all
    have hshape : writeField f ++ rest = '"' :: (escapeQuotes f ++ '"' :: rest) := by
      simp [writeField, hq]
    rw [hshape]
    simpa [parseField] using parseQuoted_escape f rest hrest'
  · have hf := not_needsQuote_spec (Bool.not_eq_true _ ▸ hq)
    have hshape : writeField f ++ rest = f ++ rest := by
      simp [writeField, hq]
    rw [hshape]
    have hun : parseUnquoted (f ++ rest) = (f, rest) :=
      parseUnquoted_spec f
        (fun c hc => by
          have := hf c hc
          rintro (rfl | rfl)
          · exact this.1 rfl
          · exact this.2.2 rfl)
        rest hrest
    cases f with
    | nil =>
      rcases hrest with rfl | h | h
      · simp [parseField, parseUnquoted]
      · cases rest with
        | nil => simp at h
        | cons c t =>
          simp only [List.head?_cons, Option.some_inj] at h
          subst h
          simpa [parseField] using hun
      · cases rest with
        | nil => simp at h
        | cons c t =>
          simp only [List.head?_cons, Option.some_inj] at h
          subst h
          simpa [parseField] using hun
    | cons c f' =>
      have hc : c ≠ '"' := (hf c (List.mem_cons_self c f')).2.1
      simpa [parseField, hc] using hun

theorem parseRecordAux_succ (fuel : ℕ) (cs : List Char) :
    parseRecordAux (fuel + 1) cs =
      if (parseField cs).2.head? = some ',' then
        ((parseField cs).1 :: (parseRecordAux fuel (parseField cs).2.tail).1,
          (parseRecordAux fuel (parseField cs).2.tail).2)
      else ([(parseField cs).1], (parseField cs).2) := rfl

theorem parseRecordAux_writeRecord :
    ∀ (fs : List (List Char)) (fuel : ℕ) (rest : List Char), fs ≠ [] →
      fs.length ≤ fuel + 1 →
      (rest = [] ∨ rest.head? = some '\n') →
      parseRecordAux (fuel + 1) (writeRecord fs ++ rest) = (fs, rest) := by
  intro fs
  induction fs with
  | nil => intro fuel rest h; exact absurd rfl h
  | cons f fs ih =>
    intro fuel rest _ hlen hrest
    cases fs with
    | nil =>
      have h1 : writeRecord [f] = writeField f := rfl
      have hrest' : rest = [] ∨ rest.head? = some ',' ∨ rest.head? = some '\n' := by
        rcases hrest with rfl | h
        · exact Or.inl rfl
        · exact Or.inr (Or.inr h)
      have hnotcomma : rest.head? ≠ some ',' := by
        rcases hrest with rfl | h <;> simp_all
      simp [parseRecordAux, h1, parseField_writeField f rest hrest', hnotcomma]
    | cons f2 fs2 =>
      have h1 : writeRecord (f :: f2 :: fs2) ++ rest
          = writeField f ++ (',' :: (writeRecord (f2 :: fs2) ++ rest)) := by
        simp [writeRecord]
      cases fuel with
      | zero => simp at hlen
      | succ fuel' =>
        have hlen' : (f2 :: fs2).length ≤ fuel' + 1 := by
          simpa using Nat.le_of_succ_le_succ hlen
        have hpf := parseField_writeField f (',' :: (writeRecord (f2 :: fs2) ++ rest))
          (Or.inr (Or.inl (by simp)))
        have hih := ih fuel' rest (by simp) hlen' hrest
        rw [h1, parseRecordAux_succ, hpf]
        simp [hih]

theorem writeRecord_length_ge :
    ∀ fs : List (List Char), fs.length ≤ (writeRecord fs).length + 1 := by
  intro fs
  induction fs with
  | nil => simp [writeRecord]
  | cons f fs ih =>
    cases fs with
    | nil => simp [writeRecord]
    | cons f2 fs2 =>
      have h1 : writeRecord (f :: f2 :: fs2)
          = writeField f ++ ',' :: writeRecord (f2 :: fs2) := rfl
      rw [h1]
      simp only [List.length_cons, List.length_append] at *
      omega

theorem parseRecord_writeRecord (fs : List (List Char)) (rest : List Char)
    (hfs : fs ≠ []) (hrest : rest = [] ∨ rest.head? = some '\n') :
    parseRecord (writeRecord fs ++ rest) = (fs, rest) := by
  have hlen : fs.length ≤ (writeRecord fs ++ rest).length + 1 := by
    have := writeRecord_length_ge fs
    simp only [List.length_append]
    omega
  unfold parseRecord
  exact parseRecordAux_writeRecord fs ((writeRecord fs ++ rest).length) rest
    hfs hlen hrest

theorem parseCsvAux_succ (fuel : ℕ) (cs : List Char) :
    parseCsvAux (fuel + 1) cs =
      if cs = [] then []
      else
        if (parseRecord cs).2.head? = some '\n' then
          (parseRecord cs).1 :: parseCsvAux fuel (parseRecord cs).2.tail
        else [(parseRecord cs).1] := rfl

theorem parseCsvAux_writeCsvRecords :
    ∀ (rs : List (List (List Char))) (fuel : ℕ),
      (∀ r ∈ rs, r ≠ []) → rs.length ≤ fuel →
      parseCsvAux fuel (writeCsvRecords rs) = rs := by
  intro rs
  induction rs with
  | nil =>
    intro fuel _ _
    cases fuel with
    | zero => rfl
    | succ fuel' => simp [parseCsvAux_succ, writeCsvRecords]
  | cons r rs ih =>
    intro fuel hne hlen
    cases fuel with
    | zero => simp at hlen
    | succ fuel' =>
      have hr : r ≠ [] := hne r (List.mem_cons_self r rs)
      have hshape : writeCsvRecords (r :: rs)
          = writeRecord r ++ '\n' :: writeCsvRecords rs := by
        simp [writeCsvRecords]
      have hpr := parseRecord_writeRecord r ('\n' :: writeCsvRecords rs) hr
        (Or.inr (by simp))
      have hnonempty : writeRecord r ++ '\n' :: writeCsvRecords rs ≠ [] := by
        intro h
        have := congrArg List.length h
        simp at this
      rw [hshape, parseCsvAux_succ, if_neg hnonempty, hpr]
      simp [ih fuel' (fun x hx => hne x (List.mem_cons_of_mem r hx))
        (Nat.le_of_succ_le_succ hlen)]

theorem writeCsvRecords_length_ge (rs : List (List (List Char))) :
    rs.length ≤ (writeCsvRecords rs).length := by
  induction rs with
  | nil => simp [writeCsvRecords]
  | cons r rs ih =>
    have hshape : writeCsvRecords (r :: rs)
        = writeRecord r ++ '\n' :: writeCsvRecords rs := by
      simp [writeCsvRecords]
    rw [hshape]
    simp only [List.length_cons, List.length_append, List.length_cons]
    omega

theorem parseCsvRecords_writeCsvRecords (rs : List (List (List Char)))
    (hne : ∀ r ∈ rs, r ≠ []) :
    parseCsvRecords (writeCsvRecords rs) = rs := by
  unfold parseCsvRecords
  exact parseCsvAux_writeCsvRecords rs ((writeCsvRecords rs).length + 1) hne
    (Nat.le_succ_of_le (writeCsvRecords_length_ge rs))

/-! ### Decimal rendering of rationals and its inverse -/

theorem digitVal_digitChar {d : ℕ} (h : d < 10) :
    digitVal (Nat.digitChar d) = d := by
  interval_cases d <;> rfl

theorem isDigit_digitChar {d : ℕ} (h : d < 10) :
    (Nat.digitChar d).isDigit = true := by
  interval_cases d <;> rfl

theorem natValChars_digits (ds : List ℕ) (h : ∀ d ∈ ds, d < 10) :
    natValChars ((ds.map Nat.digitChar).reverse) = Nat.ofDigits 10 ds := by
  induction ds with
  | nil => rfl
  | cons d ds ih =>
    have hd := h d (List.mem_cons_self d ds)
    have h' : ∀ x ∈ ds, x < 10 := fun x hx => h x (List.mem_cons_of_mem d hx)
    unfold natValChars at ih ⊢
    rw [List.map_cons, List.reverse_cons, List.foldl_append, ih h']
    simp only [List.foldl_cons, List.foldl_nil, Nat.ofDigits_cons,
      digitVal_digitChar hd]
    ring

theorem natValChars_natStrChars (n : ℕ) : natValChars (natStrChars n) = n := by
  by_cases h : n = 0
  · subst h; rfl
  · unfold natStrChars
    rw [if_neg h,
      natValChars_digits _ (fun d hd => Nat.digits_lt_base (by norm_num) hd)]
    exact Nat.ofDigits_digits 10 n

theorem ofDigits_replicate_zero (m : ℕ) :
    Nat.ofDigits 10 (List.replicate m 0) = 0 := by
  induction m with
  | zero => rfl
  | succ m ih => simp [List.replicate_succ, Nat.ofDigits_cons, ih]

theorem natValChars_natStrPadChars {k n : ℕ} (_h : n < 10 ^ k) :
    natValChars (natStrPadChars k n) = n := by
  unfold natStrPadChars
  rw [natValChars_digits]
  · rw [Nat.ofDigits_append, Nat.ofDigits_digits, ofDigits_replicate_zero]
    simp
  · intro d hd
    rcases List.mem_append.mp hd with hd | hd
    · exact Nat.digits_lt_base (by norm_num) hd
    · rw [List.eq_of_mem_replicate hd]
      norm_num

theorem digits_length_le {k n : ℕ} (h : n < 10 ^ k) :
    (Nat.digits 10 n).length ≤ k := by
  by_cases hn : n = 0
  · simp [hn]
  · have hlog := (Nat.lt_pow_iff_log_lt (by norm_num) hn).mp h
    rw [Nat.digits_len 10 n (by norm_num) hn]
    omega

theorem natStrPadChars_length {k n : ℕ} (h : n < 10 ^ k) :
    (natStrPadChars k n).length = k := by
  unfold natStrPadChars
  simp only [List.length_reverse, List.length_map, List.length_append,
    List.length_replicate]
  have := digits_length_le h
  omega

theorem natStrChars_digits_only (n : ℕ) :
    ∀ c ∈ natStrChars n, c.isDigit = true := by
  intro c hc
  unfold natStrChars at hc
  by_cases h : n = 0
  · rw [if_pos h] at hc
    simp only [List.mem_singleton] at hc
    subst hc
    rfl
  · rw [if_neg h] at hc
    rw [List.mem_reverse, List.mem_map] at hc
    obtain ⟨d, hd, rfl⟩ := hc
    exact isDigit_digitChar (Nat.digits_lt_base (by norm_num) hd)

theorem natStrPadChars_digits_only (k n : ℕ) :
    ∀ c ∈ natStrPadChars k n, c.isDigit = true := by
  intro c hc
  unfold natStrPadChars at hc
  rw [List.mem_reverse, List.mem_map] at hc
  obtain ⟨d, hd, rfl⟩ := hc
  rcases List.mem_append.mp hd with hd | hd
  · exact isDigit_digitChar (Nat.digits_lt_base (by norm_num) hd)
  · rw [List.eq_of_mem_replicate hd]
    rfl

theorem natStrChars_ne_nil (n : ℕ) : natStrChars n ≠ [] := by
  unfold natStrChars
  by_cases h : n = 0
  · simp [h]
  · rw [if_neg h]
    simp [Nat.digits_ne_nil_iff_ne_zero.mpr h]

theorem isDigit_ne_symbols {c : Char} (h : c.isDigit = true) :
    c ≠ '-' ∧ c ≠ '.' ∧ c ≠ '/' ∧ c ≠ ',' ∧ c ≠ '"' ∧ c ≠ '\n' ∧ c ≠ '\r' := by
  refine ⟨?_, ?_, ?_, ?_, ?_, ?_, ?_⟩ <;> (intro he; subst he; simp at h)

theorem takeWhile_append_stop {p : Char → Bool} :
    ∀ (l1 : List Char) (c : Char) (l2 : List Char),
      (∀ x ∈ l1, p x = true) → p c = false →
      (l1 ++ c :: l2).takeWhile p = l1
        ∧ (l1 ++ c :: l2).dropWhile p = c :: l2 := by
  intro l1
  induction l1 with
  | nil =>
    intro c l2 _ hc
    simp [List.takeWhile_cons, List.dropWhile_cons, hc]
  | cons a l1 ih =>
    intro c l2 h1 hc
    have ha : p a = true := h1 a (List.mem_cons_self a l1)
    have h1' : ∀ x ∈ l1, p x = true := fun x hx => h1 x (List.mem_cons_of_mem a hx)
    obtain ⟨ht, hd⟩ := ih c l2 h1' hc
    simp [List.takeWhile_cons, List.dropWhile_cons, ha, ht, hd]

theorem takeWhile_all {p : Char → Bool} :
    ∀ l : List Char, (∀ x ∈ l, p x = true) →
      l.takeWhile p = l ∧ l.dropWhile p = [] := by
  intro l
  induction l with
  | nil => intro _; simp
  | cons a l ih =>
    intro h
    have ha : p a = true := h a (List.mem_cons_self a l)
    obtain ⟨ht, hd⟩ := ih (fun x hx => h x (List.mem_cons_of_mem a hx))
    simp [List.takeWhile_cons, List.dropWhile_cons, ha, ht, hd]

theorem parseRatNonneg_ratBody (n d : ℕ) (hd : d ≠ 0) :
    parseRatNonneg (ratBodyChars n d) = (n : ℚ) / d := by
  cases hfind : findPow10 d with
  | none =>
    have hbody : ratBodyChars n d = natStrChars n ++ '/' :: natStrChars d := by
      simp [ratBodyChars, hfind]
    have hsplit := takeWhile_append_stop (natStrChars n) '/' (natStrChars d)
      (natStrChars_digits_only n) rfl
    rw [hbody]
    unfold parseRatNonneg
    rw [hsplit.1, hsplit.2]
    simp [natValChars_natStrChars]
  | some k =>
    have hdvd : d ∣ 10 ^ k := by
      have := List.find?_some hfind
      exact of_decide_eq_true this
    by_cases hk : k = 0
    · subst hk
      have hd1 : d = 1 := Nat.dvd_one.mp (by simpa using hdvd)
      have hbody : ratBodyChars n d = natStrChars n := by
        simp [ratBodyChars, hfind]
      rw [hbody]
      have hsplit := takeWhile_all (natStrChars n) (natStrChars_digits_only n)
      unfold parseRatNonneg
      rw [hsplit.1, hsplit.2]
      simp [natValChars_natStrChars, hd1]
    · have hbody : ratBodyChars n d
          = natStrChars (n * 10 ^ k / d / 10 ^ k) ++
            '.' :: natStrPadChars k (n * 10 ^ k / d % 10 ^ k) := by
        simp [ratBodyChars, hfind, hk]
      rw [hbody]
      have hmod : n * 10 ^ k / d % 10 ^ k < 10 ^ k :=
        Nat.mod_lt _ (Nat.pos_pow_of_pos k (by norm_num))
      have hsplit := takeWhile_append_stop
        (natStrChars (n * 10 ^ k / d / 10 ^ k)) '.'
        (natStrPadChars k (n * 10 ^ k / d % 10 ^ k))
        (natStrChars_digits_only _) rfl
      unfold parseRatNonneg
      rw [hsplit.1, hsplit.2]
      simp only [List.head?_cons, Option.some_inj, List.tail_cons]
      rw [if_pos trivial]
      rw [natValChars_natStrChars, natValChars_natStrPadChars hmod,
        natStrPadChars_length hmod]
      have hdvd' : d ∣ n * 10 ^ k := Dvd.dvd.mul_left hdvd n
      have hmd : n * 10 ^ k / d * d = n * 10 ^ k := Nat.div_mul_cancel hdvd'
      have hdm : n * 10 ^ k / d / 10 ^ k * 10 ^ k + n * 10 ^ k / d % 10 ^ k
          = n * 10 ^ k / d := by
        rw [Nat.mul_comm]
        exact Nat.div_add_mod _ _
      have h10 : ((10 : ℚ) ^ k) ≠ 0 := by positivity
      have hdQ : ((d : ℚ)) ≠ 0 := Nat.cast_ne_zero.mpr hd
      have hmQ : ((n * 10 ^ k / d / 10 ^ k : ℕ) : ℚ) * 10 ^ k
          + ((n * 10 ^ k / d % 10 ^ k : ℕ) : ℚ) = ((n * 10 ^ k / d : ℕ) : ℚ) := by
        exact_mod_cast hdm
      have hmdQ : ((n * 10 ^ k / d : ℕ) : ℚ) * d = (n : ℚ) * 10 ^ k := by
        exact_mod_cast hmd
      field_simp
      nlinarith [hmQ, hmdQ]

theorem append_head_ne_minus (l rest : List Char) (hne : l ≠ [])
    (hdig : ∀ c ∈ l, c.isDigit = true) :
    (l ++ rest).head? ≠ some '-' := by
  cases l with
  | nil => exact absurd rfl hne
  | cons a l' =>
    simp only [List.cons_append, List.head?_cons]
    intro h
    injection h with h
    have := hdig a (List.mem_cons_self a l')
    rw [h] at this
    simp at this

theorem ratBody_head_ne_minus (n d : ℕ) :
    (ratBodyChars n d).head? ≠ some '-' := by
  cases hfind : findPow10 d with
  | none =>
    have hbody : ratBodyChars n d = natStrChars n ++ '/' :: natStrChars d := by
      simp [ratBodyChars, hfind]
    rw [hbody]
    exact append_head_ne_minus _ _ (natStrChars_ne_nil n) (natStrChars_digits_only n)
  | some k =>
    by_cases hk : k = 0
    · subst hk
      have hbody : ratBodyChars n d = natStrChars n := by
        simp [ratBodyChars, hfind]
      rw [hbody, ← List.append_nil (natStrChars n)]
      exact append_head_ne_minus _ _ (natStrChars_ne_nil n) (natStrChars_digits_only n)
    · have hbody : ratBodyChars n d
          = natStrChars (n * 10 ^ k / d / 10 ^ k) ++
            '.' :: natStrPadChars k (n * 10 ^ k / d % 10 ^ k) := by
        simp [ratBodyChars, hfind, hk]
      rw [hbody]
      exact append_head_ne_minus _ _ (natStrChars_ne_nil _) (natStrChars_digits_only _)

theorem parseRatChars_ratToCsvChars (q : ℚ) :
    parseRatChars (ratToCsvChars q) = q := by
  have hden : q.den ≠ 0 := q.den_nz
  by_cases hq : q < 0
  · have hsh : ratToCsvChars q = '-' :: ratBodyChars q.num.natAbs q.den := by
      simp [ratToCsvChars, hq]
    rw [hsh]
    unfold parseRatChars
    rw [if_pos (by simp), List.tail_cons,
      parseRatNonneg_ratBody _ _ hden]
    have hnumneg : (q.num : ℚ) < 0 := by
      rw [Int.cast_lt_zero]
      exact Rat.num_neg.mpr hq
    have hnum : (q.num.natAbs : ℚ) = -(q.num : ℚ) := by
      rw [Int.cast_natAbs, Int.cast_abs]
      exact abs_of_neg hnumneg
    rw [hnum, neg_div, neg_neg]
    exact Rat.num_div_den q
  · have hsh : ratToCsvChars q = ratBodyChars q.num.natAbs q.den := by
      simp [ratToCsvChars, hq]
    rw [hsh]
    unfold parseRatChars
    rw [if_neg (ratBody_head_ne_minus _ _), parseRatNonneg_ratBody _ _ hden]
    have hnumpos : (0 : ℚ) ≤ (q.num : ℚ) := by
      rw [← Int.cast_zero, Int.cast_le]
      exact Rat.num_nonneg.mpr (le_of_not_lt hq)
    have hnum : (q.num.natAbs : ℚ) = (q.num : ℚ) := by
      rw [Int.cast_natAbs, Int.cast_abs]
      exact abs_of_nonneg hnumpos
    rw [hnum]
    exact Rat.num_div_den q

/-! ### The entry-level export/import round trip -/

theorem string_mk_data (s : String) : String.mk s.data = s := rfl

theorem parseEntryRecord_entryRecord (e : Entry) (hder : EntryDerived e) :
    parseEntryRecord (entryRecord e) = some e := by
  obtain ⟨h1, h2⟩ := hder
  unfold parseEntryRecord entryRecord
  simp only [parseRatChars_ratToCsvChars, string_mk_data, Option.some_inj]
  unfold calculate_credits
  cases e with
  | mk i ts nm rl act qty co2 cr =>
    simp only at h1 h2 ⊢
    rw [h2, h1]

theorem mapM_map_some {α β : Type} (f : β → Option α) (g : α → β)
    (l : List α) (h : ∀ x ∈ l, f (g x) = some x) : (l.map g).mapM f = some l := by
  induction l with
  | nil => rfl
  | cons x l ih =>
    simp only [List.map_cons, List.mapM_cons, h x (List.mem_cons_self x l),
      ih (fun y hy => h y (List.mem_cons_of_mem x hy))]
    rfl

theorem parseLedgerCsv_to_csv (l : List Entry) (h : ∀ e ∈ l, EntryDerived e) :
    parseLedgerCsv (to_csv l) = some l := by
  unfold to_csv parseLedgerCsv
  rw [parseCsvRecords_writeCsvRecords]
  · exact mapM_map_some _ _ l (fun e he => parseEntryRecord_entryRecord e (h e he))
  · intro r hr
    rcases List.mem_cons.mp hr with rfl | hr
    · simp [DATA_COLUMNS]
    · rcases List.mem_map.mp hr with ⟨e, _, rfl⟩
      simp [entryRecord]

/-! ### Helper lemmas about the program's operations -/

theorem factorOf_mem {a : String} {f : ℚ} {u : String}
    (h : (a, f, u) ∈ EMISSION_FACTORS) : factorOf a = f := by
  fin_cases h <;> rfl

theorem factorOf_lookup_none {a : String}
    (h : EMISSION_FACTORS.lookup a = none) : factorOf a = 0 := by
  unfold factorOf
  rw [h]
  rfl

theorem submitForm_data (name role activity : String) (q : ℚ)
    (newId now : String) (s : AppState) :
    (submitForm name role activity q newId now s).1.data
      = if name = "" ∨ q ≤ 0 then s.data
        else s.data ++ [⟨newId, now, name, role, activity, q,
          (calculate_credits activity q).1, (calculate_credits activity q).2⟩] := by
  unfold submitForm
  by_cases h1 : name = ""
  · simp [h1]
  · by_cases h2 : q ≤ 0 <;> simp [h1, h2]

theorem initialize_data_data (generateMockData : Bool)
    (samples : List MockSample) (s : AppState) :
    (initialize_data generateMockData samples s).data
      = if ¬s.hasData ∨ s.dataReset then
          (if generateMockData then mockDataFrame samples else [])
        else s.data := by
  unfold initialize_data populate_mock_data
  by_cases h : ¬s.hasData ∨ s.dataReset
  · rw [if_pos h, if_pos h]
    by_cases hg : generateMockData <;> simp [hg]
  · rw [if_neg h, if_neg h]

theorem mem_mockDataFrame {e : Entry} {samples : List MockSample}
    (h : e ∈ mockDataFrame samples) : ∃ m ∈ samples, e = mkMockEntry m := by
  unfold mockDataFrame at h
  rw [(List.perm_insertionSort tsLeProp _).mem_iff] at h
  rcases List.mem_map.mp h with ⟨m, hm, rfl⟩
  exact ⟨m, hm, rfl⟩

theorem mkMockEntry_derived (m : MockSample) : EntryDerived (mkMockEntry m) :=
  ⟨rfl, rfl⟩

theorem groupbySum_perm (key : Entry → String) (val : Entry → ℚ)
    {l1 l2 : List Entry} (h : List.Perm l1 l2) :
    groupbySum key val l1 = groupbySum key val l2 := by
  unfold groupbySum
  have hkeys : List.insertionSort strLeProp (l1.map key).dedup
      = List.insertionSort strLeProp (l2.map key).dedup := by
    refine @List.eq_of_perm_of_sorted _ strLeProp ⟨strLe_antisymm⟩ _ _ ?_ ?_ ?_
    · exact (List.perm_insertionSort _ _).trans
        (((h.map key).dedup).trans (List.perm_insertionSort _ _).symm)
    · exact @List.sorted_insertionSort _ _ _ ⟨strLe_total⟩ ⟨strLe_trans⟩ _
    · exact @List.sorted_insertionSort _ _ _ ⟨strLe_total⟩ ⟨strLe_trans⟩ _
  rw [hkeys]
  apply List.map_congr_left
  intro k _
  rw [List.Perm.sum_eq (List.Perm.map val (h.filter (fun e => key e = k)))]

theorem groupbySum_ne_nil (key : Entry → String) (val : Entry → ℚ)
    {l : List Entry} (h : l ≠ []) : groupbySum key val l ≠ [] := by
  cases l with
  | nil => exact absurd rfl h
  | cons e l' =>
    unfold groupbySum
    intro hcontra
    have hmem := groupbySum_keys_mem key (e :: l') e (List.mem_cons_self e l')
    rw [List.map_eq_nil_iff.mp hcontra] at hmem
    exact absurd hmem (List.not_mem_nil _)

theorem cumPairs_map_fst (acc : ℚ) (g : List (String × ℚ)) :
    (cumPairs acc g).map Prod.fst = g.map Prod.fst := by
  induction g generalizing acc with
  | nil => rfl
  | cons p t ih =>
    obtain ⟨k, v⟩ := p
    simp [cumPairs, ih]

/-! ### Claim theorems -/

/-- C1: for every activity recognized by the emission-factor table and
every quantity, `calculate_credits` returns `co2Saved = quantity *
factor(activity)` and `credits = co2Saved`, exactly (the embedding works
in `ℚ`, so no rounding occurs inside the calculator). -/
theorem calculate_credits_spec (a : String) (f : ℚ) (u : String) (q : ℚ)
    (h : (a, f, u) ∈ EMISSION_FACTORS) :
    (calculate_credits a q).1 = q * f
      ∧ (calculate_credits a q).2 = (calculate_credits a q).1 := by
  refine ⟨?_, rfl⟩
  unfold calculate_credits
  rw [factorOf_mem h]

/-- C1 witness: the spec's scenario — 2 trees planted yield
`co2Saved = credits = 2 * 21.77 = 43.54`. -/
theorem calculate_credits_spec_witness :
    ("Trees planted", ((2177/100 : ℚ), "count")) ∈ EMISSION_FACTORS
      ∧ (calculate_credits "Trees planted" 2).1 = 2 * (2177/100)
      ∧ (calculate_credits "Trees planted" 2).2
          = (calculate_credits "Trees planted" 2).1 := by
  have hmem : ("Trees planted", ((2177/100 : ℚ), "count")) ∈ EMISSION_FACTORS :=
    List.Mem.tail _ (List.Mem.tail _ (List.Mem.tail _ (List.Mem.head _)))
  have h := calculate_credits_spec "Trees planted" (2177/100) "count" 2 hmem
  exact ⟨hmem, h.1, h.2⟩

/-- C3 counterexample: the calculator does not fail on an unrecognized
activity; `EMISSION_FACTORS.get(activity, {"factor": 0})` silently gives
factor `0`, so `calculate_credits "Plastic recycled" 5` returns `(0, 0)`
instead of signalling `InvalidActivity`. (The whole program never raises:
`calculate_credits` is a total function on any activity string.) -/
theorem calculate_credits_unknown_counterexample :
    EMISSION_FACTORS.lookup "Plastic recycled" = none
      ∧ calculate_credits "Plastic recycled" 5 = (0, 0) := by
  constructor
  · rfl
  · unfold calculate_credits
    rw [@factorOf_lookup_none "Plastic recycled" rfl]
    norm_num

/-- C3 amended: for every activity value that is not a key of the
emission-factor table, the calculator does not fail; it silently uses the
default factor `0` and returns `(0, 0)`. -/
theorem calculate_credits_unknown_activity (a : String) (q : ℚ)
    (h : EMISSION_FACTORS.lookup a = none) :
    calculate_credits a q = (0, 0) := by
  unfold calculate_credits
  rw [factorOf_lookup_none h]
  norm_num

/-- C3 amended witness: the unknown activity "Plastic recycled" with
quantity 5 yields `(0, 0)`. -/
theorem calculate_credits_unknown_activity_witness :
    EMISSION_FACTORS.lookup "Plastic recycled" = none
      ∧ calculate_credits "Plastic recycled" 5 = (0, 0) :=
  ⟨rfl, calculate_credits_unknown_activity "Plastic recycled" 5 rfl⟩

/-- C10: the calculator validates nothing — for every activity in the
table and every rational quantity, zero and negative included, it returns
`(quantity * factor, quantity * factor)` (it is a total function, no
error); positivity is enforced only at the submission boundary, where a
non-positive quantity leaves the state unchanged before the calculator's
result is ever stored. -/
theorem calculate_credits_no_validation :
    (∀ (a : String) (f : ℚ) (u : String), (a, f, u) ∈ EMISSION_FACTORS →
        ∀ q : ℚ, calculate_credits a q = (q * f, q * f))
      ∧ (∀ (name role activity : String) (q : ℚ) (newId now : String)
          (s : AppState), q ≤ 0 →
            (submitForm name role activity q newId now s).1 = s) := by
  constructor
  · intro a f u h q
    unfold calculate_credits
    rw [factorOf_mem h]
  · intro name role activity q newId now s hq
    unfold submitForm
    by_cases h1 : name = "" <;> simp [h1, hq]

/-- C10 witness: a negative quantity for a known activity flows through
the calculator unvalidated, and a zero quantity is rejected at the
submission boundary with the state unchanged. -/
theorem calculate_credits_no_validation_witness :
    calculate_credits "Water Saved" (-2) = ((-2) * (3/10000), (-2) * (3/10000))
      ∧ (submitForm "Bob" "Student" "Water Saved" 0 "i1" "t1" initialState).1
          = initialState := by
  have hmem : ("Water Saved", ((3/10000 : ℚ), "liters")) ∈ EMISSION_FACTORS :=
    List.Mem.tail _ (List.Mem.tail _ (List.Mem.tail _ (List.Mem.tail _
      (List.Mem.tail _ (List.Mem.tail _ (List.Mem.head _))))))
  exact ⟨calculate_credits_no_validation.1 "Water Saved" (3/10000) "liters"
      hmem (-2),
    calculate_credits_no_validation.2 "Bob" "Student" "Water Saved" 0 "i1"
      "t1" initialState le_rfl⟩

/-- C5: a submission with an empty actor name or a non-positive quantity
is rejected with an error and leaves the whole state — hence the ledger's
size and contents — unchanged; a submission passing both checks appends
exactly the one calculator-derived entry at the end. -/
theorem submitForm_validation (name role activity : String) (q : ℚ)
    (newId now : String) (s : AppState) :
    ((name = "" ∨ q ≤ 0) →
        (submitForm name role activity q newId now s).1 = s
          ∧ ∃ msg, (submitForm name role activity q newId now s).2
              = SubmitResult.error msg)
      ∧ (name ≠ "" → 0 < q →
          (submitForm name role activity q newId now s).1.data
            = s.data ++ [⟨newId, now, name, role, activity, q,
                (calculate_credits activity q).1,
                (calculate_credits activity q).2⟩]) := by
  constructor
  · intro h
    unfold submitForm
    by_cases h1 : name = ""
    · exact ⟨by simp [h1], ⟨"Please enter your name.", by simp [h1]⟩⟩
    · have h2 : q ≤ 0 := h.resolve_left h1
      exact ⟨by simp [h1, h2], ⟨"Quantity must be greater than zero.",
        by simp [h1, h2]⟩⟩
  · intro h1 h2
    unfold submitForm
    rw [if_neg h1, if_neg (not_le.mpr h2)]

/-- C5 witness: an empty name (or zero quantity) leaves the initial state
untouched, and a valid submission appends exactly one entry. -/
theorem submitForm_validation_witness :
    ((submitForm "" "Student" "Trees planted" 5 "i1" "t1" initialState).1
        = initialState
      ∧ ∃ msg, (submitForm "" "Student" "Trees planted" 5 "i1" "t1"
          initialState).2 = SubmitResult.error msg)
      ∧ (submitForm "Alice" "Student" "Trees planted" 2 "i2" "t2"
          initialState).1.data
        = initialState.data ++ [⟨"i2", "t2", "Alice", "Student",
            "Trees planted", 2, (calculate_credits "Trees planted" 2).1,
            (calculate_credits "Trees planted" 2).2⟩] := by
  refine ⟨(submitForm_validation "" "Student" "Trees planted" 5 "i1" "t1"
      initialState).1 (Or.inl rfl), ?_⟩
  exact (submitForm_validation "Alice" "Student" "Trees planted" 2 "i2" "t2"
      initialState).2 (by decide) (by norm_num)

/-- C2: every entry in the ledger of any reachable state — appended by a
live submission or generated by the mock seeder — satisfies
`credits = co2Saved` exactly, because both paths build the pair with
`calculate_credits`. -/
theorem ledger_credits_eq_co2Saved (s : AppState) (h : Reachable s) :
    ∀ e ∈ s.data, e.credits = e.co2Saved := by
  induction h with
  | init generateMockData samples =>
    intro e he
    rw [initialize_data_data] at he
    split_ifs at he
    · obtain ⟨m, _, rfl⟩ := mem_mockDataFrame he
      exact (mkMockEntry_derived m).2
    · exact absurd he (List.not_mem_nil e)
    · exact absurd he (by simp [initialState])
  | rerun generateMockData samples hs ih =>
    intro e he
    rw [initialize_data_data] at he
    split_ifs at he
    · obtain ⟨m, _, rfl⟩ := mem_mockDataFrame he
      exact (mkMockEntry_derived m).2
    · exact absurd he (List.not_mem_nil e)
    · exact ih e he
  | submit name role activity q newId now hs ih =>
    intro e he
    rw [submitForm_data] at he
    split_ifs at he
    · exact ih e he
    · rcases List.mem_append.mp he with he | he
      · exact ih e he
      · rw [List.mem_singleton] at he
        subst he
        rfl
  | reset generateMockData samples hs ih =>
    intro e he
    rw [initialize_data_data] at he
    split_ifs at he
    · obtain ⟨m, _, rfl⟩ := mem_mockDataFrame he
      exact (mkMockEntry_derived m).2
    · exact absurd he (List.not_mem_nil e)
    · exact ih e he

/-- C2 witness: `entryAlice` is the entry a concrete valid submission
appends to an unseeded session's ledger, and it satisfies
`credits = co2Saved`. -/
theorem ledger_credits_eq_co2Saved_witness :
    entryAlice.credits = entryAlice.co2Saved := by
  have hf : factorOf "Trees planted" = 2177/100 := rfl
  apply ledger_credits_eq_co2Saved
    ((submitForm "Alice" "Student" "Trees planted" 2 "a1"
      "2025-01-01 09:00:00" (initialize_data false [] initialState)).1)
    (Reachable.submit "Alice" "Student" "Trees planted" 2 "a1"
      "2025-01-01 09:00:00" (Reachable.init false []))
  rw [submitForm_data, initialize_data_data]
  norm_num [initialState, entryAlice, Entry.mk.injEq, calculate_credits, hf]
  decide

/-- C4 counterexample: the leaderboard does not break ties by ledger
encounter order. With actor "Y" submitted first and "X" second, both at 9
credits, the code lists "X" first: pandas `groupby('Name')` pre-sorts the
groups alphabetically, which discards encounter order — as the first
conjunct shows, the leaderboard cannot depend on it at all. No rank
number is computed anywhere in the code. -/
theorem leaderboard_tie_counterexample :
    leaderboard [entryY, entryX] = leaderboard [entryX, entryY]
      ∧ (leaderboard [entryY, entryX]).head? = some ("X", 9) := by
  have hc1 : ¬strLeProp "Y" "X" := by decide
  have hc2 : strLeProp "X" "Y" := by decide
  have hg1 : groupbySum (fun e => e.name) (fun e => e.credits)
      [entryY, entryX] = [("X", 9), ("Y", 9)] := by
    simp [groupbySum, entryY, entryX, hc1, hc2]
  have hg2 : groupbySum (fun e => e.name) (fun e => e.credits)
      [entryX, entryY] = [("X", 9), ("Y", 9)] := by
    simp [groupbySum, entryY, entryX, hc1, hc2]
  have hsort : sortValuesDesc [(("X" : String), (9 : ℚ)), ("Y", 9)]
      = [("X", 9), ("Y", 9)] := by
    norm_num [sortValuesDesc, insertDesc]
  constructor
  · rw [leaderboard, leaderboard, hg1, hg2]
  · rw [leaderboard, hg1, hsort]
    rfl

/-- C4 amended: for every ledger snapshot, the leaderboard groups entries
by actor name, sums credits per actor, and sorts descending by summed
credits; the grouped sums are independent of entry encounter order (the
leaderboard is invariant under permuting the ledger), and actors with
equal summed credits appear in ascending (alphabetical) name order — the
groupby key order — rather than in first-encountered order; no rank
numbers are assigned by the code. -/
theorem leaderboard_spec (l : List Entry) :
    (leaderboard l).Pairwise (fun a b => b.2 ≤ a.2)
      ∧ (leaderboard l).Pairwise (fun a b => a.2 = b.2 → strLt a.1 b.1)
      ∧ ∀ l2 : List Entry, List.Perm l l2 → leaderboard l = leaderboard l2 := by
  refine ⟨?_, ?_, ?_⟩
  · exact (sortValuesDesc_pairwise _
      (groupbySum_keys_pairwise (fun e => e.name) (fun e => e.credits) l)).1
  · exact (sortValuesDesc_pairwise _
      (groupbySum_keys_pairwise (fun e => e.name) (fun e => e.credits) l)).2
  · intro l2 hperm
    unfold leaderboard
    rw [groupbySum_perm (fun e => e.name) (fun e => e.credits) hperm]

/-- C4 amended witness: on the tied two-entry ledger, the leaderboard is
sorted descending, ties are in alphabetical name order, and swapping the
two ledger rows leaves the leaderboard unchanged. -/
theorem leaderboard_spec_witness :
    (leaderboard [entryY, entryX]).Pairwise (fun a b => b.2 ≤ a.2)
      ∧ (leaderboard [entryY, entryX]).Pairwise
          (fun a b => a.2 = b.2 → strLt a.1 b.1)
      ∧ leaderboard [entryY, entryX] = leaderboard [entryX, entryY] := by
  have h := leaderboard_spec [entryY, entryX]
  exact ⟨h.1, h.2.1, h.2.2 [entryX, entryY] (List.Perm.swap entryX entryY [])⟩

/-- C6: for every non-empty ledger snapshot whose entries carry
non-negative credits (every persisted entry does: quantity is positive and
factors are non-negative), the cumulative timeline — sum credits per
calendar date, dates in ascending order, then prefix sums — is
monotonically non-decreasing, its dates are strictly ascending, and its
final value is the global `totalCredits` of the snapshot. -/
theorem cumulativeTimeline_spec (l : List Entry) (hne : l ≠ [])
    (hval : ∀ e ∈ l, 0 ≤ e.credits) :
    ((cumulativeTimeline l).map Prod.snd).Chain' (fun a b => a ≤ b)
      ∧ (cumulativeTimeline l).Pairwise (fun a b => strLt a.1 b.1)
      ∧ ((cumulativeTimeline l).map Prod.snd).getLast?
          = some (totalCredits l) := by
  refine ⟨?_, ?_, ?_⟩
  · unfold cumulativeTimeline
    rw [List.chain'_map]
    apply cumPairs_chain
    intro p hp
    unfold groupbySum at hp
    rcases List.mem_map.mp hp with ⟨k, _, rfl⟩
    exact List.sum_nonneg (fun x hx => by
      rcases List.mem_map.mp hx with ⟨e, he, rfl⟩
      exact hval e (List.mem_filter.mp he).1)
  · unfold cumulativeTimeline
    have hkeys := groupbySum_keys_pairwise (fun e => dateOf e.timestamp)
      (fun e => e.credits) l
    have hfst := cumPairs_map_fst 0
      (groupbySum (fun e => dateOf e.timestamp) (fun e => e.credits) l)
    rw [← List.pairwise_map (f := Prod.fst)] at hkeys ⊢
    rw [hfst]
    exact hkeys
  · unfold cumulativeTimeline
    rw [cumPairs_getLast 0 _
      (groupbySum_ne_nil (fun e => dateOf e.timestamp) (fun e => e.credits) hne)]
    rw [zero_add, groupbySum_snd_sum]
    rfl

/-- C6 witness: on the two-entry demo ledger the timeline is
non-decreasing, strictly date-ordered, and ends at the total. -/
theorem cumulativeTimeline_spec_witness :
    [entryAlice, entryBob] ≠ ([] : List Entry)
      ∧ (((cumulativeTimeline [entryAlice, entryBob]).map Prod.snd).Chain'
          (fun a b => a ≤ b)
        ∧ (cumulativeTimeline [entryAlice, entryBob]).Pairwise
            (fun a b => strLt a.1 b.1)
        ∧ ((cumulativeTimeline [entryAlice, entryBob]).map Prod.snd).getLast?
            = some (totalCredits [entryAlice, entryBob])) := by
  refine ⟨by simp, cumulativeTimeline_spec [entryAlice, entryBob] (by simp) ?_⟩
  intro e he
  rcases List.mem_cons.mp he with rfl | he
  · norm_num [entryAlice]
  · rcases List.mem_cons.mp he with rfl | he
    · norm_num [entryBob]
    · exact absurd he (List.not_mem_nil e)

/-- C7: summing the full per-actor leaderboard totals (before any top-N
truncation, which the code applies only to the separate `nlargest(10)`
chart data) gives exactly the global `totalCredits` of the snapshot. -/
theorem leaderboard_sum_eq_totalCredits (l : List Entry) :
    ((leaderboard l).map Prod.snd).sum = totalCredits l := by
  unfold leaderboard totalCredits
  rw [List.Perm.sum_eq (List.Perm.map Prod.snd (sortValuesDesc_perm _))]
  exact groupbySum_snd_sum (fun e => e.name) (fun e => e.credits) l

/-- C8: a reset (the `data_reset` flag plus the rerun's
`initialize_data`) yields exactly the freshly seeded mock DataFrame when
seeding is enabled, and exactly the empty ledger when it is not — no
pre-reset entry survives in either case, and the composed update admits
no observable intermediate state. -/
theorem reset_yields_seed_or_empty (s : AppState) (generateMockData : Bool)
    (samples : List MockSample) :
    (initialize_data generateMockData samples (reset_data_callback s)).data
      = if generateMockData then mockDataFrame samples else [] := by
  rw [initialize_data_data]
  rw [if_pos (Or.inr (by simp [reset_data_callback]))]

/-- C9: exporting a snapshot to CSV, re-parsing with the format's
inverse, and re-deriving each row's `co2Saved`/`credits` from its
`(activity, quantity)` through `calculate_credits` reproduces the
original entries exactly (the `ℚ` embedding makes the float tolerance an
equality), and in particular reproduces the aggregate `totalCredits`. -/
theorem export_roundtrip (l : List Entry) (h : ∀ e ∈ l, EntryDerived e) :
    parseLedgerCsv (to_csv l) = some l
      ∧ (parseLedgerCsv (to_csv l)).map totalCredits
          = some (totalCredits l) := by
  have h1 := parseLedgerCsv_to_csv l h
  exact ⟨h1, by rw [h1]; rfl⟩

/-- C9 witness: the spec-scenario ledger (Alice 2 trees, Bob 10 km)
round-trips through the CSV export. -/
theorem export_roundtrip_witness :
    parseLedgerCsv (to_csv [entryAlice, entryBob])
        = some [entryAlice, entryBob]
      ∧ (parseLedgerCsv (to_csv [entryAlice, entryBob])).map totalCredits
          = some (totalCredits [entryAlice, entryBob]) := by
  apply export_roundtrip
  intro e he
  rcases List.mem_cons.mp he with rfl | he
  · constructor
    · have hf : factorOf "Trees planted" = 2177/100 := rfl
      norm_num [entryAlice, hf]
    · norm_num [entryAlice]
  · rcases List.mem_cons.mp he with rfl | he
    · constructor
      · have hf : factorOf "Walk/Bike Commute" = 15/100 := rfl
        norm_num [entryBob, hf]
      · norm_num [entryBob]
    · exact absurd he (List.not_mem_nil e)

end CarbonCredits
